import Mathlib

set_option maxRecDepth 100000

/-!
Verification of the RRD4J chart-generator core (`genchart.py`).

The data-extraction pipeline of the program is shallowly embedded here:

* bytes are `List ℕ` (each entry a byte value);
* IEEE-754 binary64 values are decoded exactly into `DVal`
  (a finite value is carried as the exact rational it denotes;
  NaN and the two infinities are collapsed to `DVal.nan` / `DVal.inf`,
  which is faithful because the program only ever asks
  "is it NaN / is it infinite" and compares magnitudes of finite values);
* Python's unbounded integers become `ℕ` / `ℤ`, and floating point
  arithmetic on already-decoded values is modelled exactly over `ℚ`.
  At every comparison the claims exercise, the binary64 computation the
  program performs is exact, so the `ℚ` model agrees with it
  (e.g. `required_duration * 0.8` is exact for all five period durations,
  and `abs(5.0) * 0.1` rounds to exactly `0.5`);
* a Python exception caught by the surrounding `try`/`except` (truncated
  reads, `max` of an empty sequence, a zero archive count) is modelled as
  `none`;
* the literal `0.0001` in the heuristic scanner denotes the binary64
  value `7378697629483821 / 2 ^ 66`, and is embedded as exactly that
  rational.

Definitions mirror the source functions of `genchart.py`; the names keep
the Python names where Lean allows it.
-/

namespace Genchart

/-- A decoded IEEE-754 binary64 value: either a finite value (carried as
the exact rational it denotes), a NaN, or an infinity.  The program never
distinguishes +inf from -inf nor NaN payloads, so these are collapsed. -/
inductive DVal where
  | fin (q : ℚ)
  | nan
  | inf
deriving DecidableEq, Repr

/-- `not math.isnan(val) and not math.isinf(val)` from the source. -/
def DVal.isFinite : DVal → Bool
  | .fin _ => true
  | _ => false

/-- The rational denoted by a finite `DVal` (junk value `0` otherwise;
only ever applied to finite values). -/
def DVal.toRat : DVal → ℚ
  | .fin q => q
  | _ => 0

/-- Decode 8 big-endian bytes as an IEEE-754 binary64 value
(`struct.unpack('>d', ...)` in the source).  Sign bit, 11 exponent
bits, 52 fraction bits; exponent 2047 encodes inf/NaN, exponent 0 the
subnormals.  The finite case returns the exact rational value. -/
def decodeDouble (b : List ℕ) : DVal :=
  let bits : ℕ := b.foldl (fun a x => a * 256 + x) 0
  let sign : ℚ := if bits / 2 ^ 63 % 2 = 1 then -1 else 1
  let expo : ℕ := bits / 2 ^ 52 % 2 ^ 11
  let frac : ℕ := bits % 2 ^ 52
  if expo = 2047 then (if frac = 0 then .inf else .nan)
  else if expo = 0 then .fin (sign * (frac : ℚ) / ((2 ^ 1074 : ℕ) : ℚ))
  else .fin (sign * ((2 ^ 52 + frac : ℕ) : ℚ) * ((2 ^ expo : ℕ) : ℚ) / ((2 ^ 1075 : ℕ) : ℚ))

/-- Read `k` bytes big-endian at offset `off` as an unsigned integer
(`struct.unpack` of `>I` / `>Q` on `data[off:off+k]`).  Python's
`struct.unpack` raises when the slice is shorter than `k` bytes, i.e.
exactly when `off + k > len(data)`; that is modelled as `none`. -/
def readU (data : List ℕ) (off k : ℕ) : Option ℕ :=
  if off + k ≤ data.length then
    some (((data.drop off).take k).foldl (fun a b => a * 256 + b) 0)
  else none

/-- Read `n` consecutive big-endian doubles at offset `off`
(`struct.unpack(f'>{n}d', data[off:off+8*n])`); `none` when the slice
would be short, as `struct.unpack` raises then. -/
def readF64s (data : List ℕ) (off n : ℕ) : Option (List DVal) :=
  if off + 8 * n ≤ data.length then
    some ((List.range n).map fun i => decodeDouble ((data.drop (off + 8 * i)).take 8))
  else none

/-- A timestamp/value pair as produced by the extraction stages. -/
abbrev Sample := ℚ × ℚ

/-- Circular-buffer reordering from `parse_rrd4j_file` (lines 100-103):
`values[pointer:] + values[:pointer]` when `0 < pointer < len(values)`,
otherwise the values unchanged. -/
def reorderValues (pointer : ℕ) (values : List DVal) : List DVal :=
  if 0 < pointer ∧ pointer < values.length then
    values.drop pointer ++ values.take pointer
  else values

/-- One archive record as accumulated in `archive_data`. -/
structure ArchiveRec where
  steps : ℕ
  rows : ℕ
  pointer : ℕ
  values : List DVal
deriving DecidableEq, Repr

/-- The per-archive read loop of `parse_rrd4j_file` (lines 76-110).
At offset `off` (start of an archive definition): `steps`/`rows` are the
4-byte fields at `off+48`/`off+52`; then the 16-byte-per-datasource
state is skipped, the first robin's 4-byte write pointer and `rows`
doubles are read, the remaining datasources' robins are skipped, and the
values are circular-buffer reordered.  Any short read raises in Python
and is `none` here. -/
def readArchives (data : List ℕ) (dsCount : ℕ) : ℕ → ℕ → Option (List ArchiveRec)
  | 0, _ => some []
  | n + 1, off =>
    match readU data (off + 48) 4, readU data (off + 52) 4 with
    | some steps, some rows =>
      match readU data (off + 56 + dsCount * 16) 4,
            readF64s data (off + 56 + dsCount * 16 + 4) rows with
      | some pointer, some values =>
        match readArchives data dsCount n
            (off + 56 + dsCount * 16 + 4 + rows * 8 + (dsCount - 1) * (4 + rows * 8)) with
        | some rest => some ({ steps := steps, rows := rows, pointer := pointer,
                               values := reorderValues pointer values } :: rest)
        | none => none
      | _, _ => none
    | _, _ => none

/-- The `period_duration` dictionary of `parse_rrd4j_file` (lines
113-120) with its `.get(period, 24*3600)` default.  The identical table
appears again as `period_seconds` in `process_data`. -/
def periodDuration (period : String) : ℕ :=
  if period = "h" then 3600
  else if period = "D" then 86400
  else if period = "W" then 604800
  else if period = "M" then 2592000
  else if period = "Y" then 31536000
  else 86400

/-- `arc['rows'] * (step * arc['steps'])`: the total time coverage of an
archive, used both by the qualification test and the fallback key. -/
def coverage (step : ℕ) (a : ArchiveRec) : ℕ :=
  a.rows * (step * a.steps)

/-- `arc_duration >= required_duration * 0.8` (line 127).  For every
duration produced by `periodDuration`, the binary64 product
`required_duration * 0.8` rounds to exactly `0.8` times the duration, so
the comparison is embedded exactly over `ℚ`. -/
def archiveQualifies (step : ℕ) (period : String) (a : ArchiveRec) : Bool :=
  decide ((periodDuration period : ℚ) * (4 / 5) ≤ (coverage step a : ℚ))

/-- Python's `max(l, key=f)`: the first element attaining the maximal
key (the running maximum is replaced only on a strictly greater key).
`max` of an empty sequence raises `ValueError`, modelled as `none`. -/
def pythonMaxBy (f : α → ℕ) : List α → Option α
  | [] => none
  | x :: xs => some (xs.foldl (fun acc y => if f acc < f y then y else acc) x)

/-- Archive selection of `parse_rrd4j_file` (lines 122-133): the first
archive covering at least 80% of the requested duration, else the
archive of greatest coverage (`max` raising on an empty list). -/
def selectArchive (step : ℕ) (archives : List ArchiveRec) (period : String) : Option ArchiveRec :=
  match archives.find? (archiveQualifies step period) with
  | some a => some a
  | none => pythonMaxBy (coverage step) archives

/-- The pair-building loop of `parse_rrd4j_file` (lines 141-145): for
each index `i` whose value is finite, emit
`(last_update - (len(values) - i - 1) * arc_step, val)`.  Python's
`len(values) - i - 1` is computed on non-negative integers, hence the
`ℕ` subtraction. -/
def buildPairs (lu : ℚ) (S : ℕ) (values : List DVal) : List Sample :=
  values.enum.filterMap fun p =>
    if p.2.isFinite then some (lu - ((values.length - p.1 - 1 : ℕ) : ℚ) * (S : ℕ), p.2.toRat)
    else none

/-- Lines 141-147: the built pairs, or `None` when no value survived
(`return pairs if pairs else None`). -/
def archiveSamples (lu : ℚ) (S : ℕ) (values : List DVal) : Option (List Sample) :=
  let pairs := buildPairs lu S values
  if pairs.isEmpty then none else some pairs

/-- `parse_rrd4j_file` (lines 46-150), with the file contents passed as
bytes and `int(time.time())` injected as `nowI`.  The 40-byte signature
is skipped; the header `step`/`dsCount`/`arcCount`/`lastUpdate` fields
are the big-endian fields at offsets 40/48/52/56; out-of-range `step`
and `lastUpdate` are reset (lines 66-69); datasource records (128 bytes
each) are skipped; then archives are read, one is selected, and pairs
are built.  Every exception path of the Python `try` block (short reads,
`max` of the empty archive list) returns `none`. -/
def parseRRD4J (nowI : ℕ) (data : List ℕ) (period : String) : Option (List Sample) :=
  match readU data 40 8, readU data 48 4, readU data 52 4, readU data 56 8 with
  | some step0, some dsCount, some arcCount, some lu0 =>
    let step := if step0 < 1 ∨ 86400 < step0 then 60 else step0
    let lu := if lu0 < 1577836800 ∨ 2000000000 < lu0 then nowI else lu0
    match readArchives data dsCount arcCount (64 + dsCount * 128) with
    | some archives =>
      match selectArchive step archives period with
      | some sel => archiveSamples (lu : ℚ) (step * sel.steps) sel.values
      | none => none
    | none => none
  | _, _, _, _ => none

/-! ## Heuristic scanner (`parse_rrd4j_values_only`, lines 153-199) -/

/-- The binary64 value denoted by the Python literal `0.0001`:
`0.0001` is not dyadic, and rounds to `7378697629483821 * 2 ^ (-66)`. -/
def lowSensorBound : ℚ := 7378697629483821 / 2 ^ (66 : ℕ)

/-- `is_valid_sensor_value` (lines 159-162): finite and
`0.0001 < abs(val) < 10000`.  Both comparisons of the program compare
two binary64 values and are exact; `0.0001` denotes `lowSensorBound`. -/
def is_valid_sensor_value (v : DVal) : Bool :=
  match v with
  | .fin q => decide (lowSensorBound < |q|) && decide (|q| < 10000)
  | _ => false

/-- The doubles the scanner's loop reads: offsets `200, 208, 216, ...`
strictly below `len(data) - 8` (`range(200, len(data) - 8, 8)`), each an
8-byte big-endian double. -/
def scanVals (data : List ℕ) : List DVal :=
  (List.range ((data.length - 208 + 7) / 8)).map fun k =>
    decodeDouble ((data.drop (200 + 8 * k)).take 8)

/-- The block-accumulation loop of `parse_rrd4j_values_only` (lines
164-181): plausible values extend `current`; an implausible value closes
it, keeping it only when it has at least 30 values; the block still open
when the input ends is kept under the same condition.  (The source also
tracks `current_start`, which never influences the output and is
omitted.) -/
def scanLoop : List DVal → List (List DVal) → List DVal → List (List DVal)
  | [], blocks, current => if 30 ≤ current.length then blocks ++ [current] else blocks
  | v :: rest, blocks, current =>
    if is_valid_sensor_value v then scanLoop rest blocks (current ++ [v])
    else scanLoop rest (if 30 ≤ current.length then blocks ++ [current] else blocks) []

/-- `parse_rrd4j_values_only` (lines 153-199) with `time.time()`
injected as `now`: scan for blocks, take the block with most values
(`max(blocks, key=len)`, `None` when there is no block), and attach
synthetic timestamps `now - (len(values) - i - 1) * 60`. -/
def parse_rrd4j_values_only (now : ℚ) (data : List ℕ) : Option (List Sample) :=
  let blocks := scanLoop (scanVals data) [] []
  match pythonMaxBy List.length blocks with
  | none => none
  | some values =>
    some (values.enum.map fun p =>
      (now - ((values.length - p.1 - 1 : ℕ) : ℚ) * 60, p.2.toRat))

/-! ## Resampler (`process_data`, lines 202-305) -/

/-- Python's `math.floor` on an exact rational, as a computation the
kernel can evaluate: `⌊q⌋ = q.num / q.den` (`Rat.floor_def`). -/
def floorQ (q : ℚ) : ℤ := q.num / (q.den : ℤ)

/-- Python's `math.ceil` on an exact rational: `⌈q⌉ = -⌊-q⌋`. -/
def ceilQ (q : ℚ) : ℤ := -floorQ (-q)

/-- The `fallback_points` dictionary (lines 239-242) with its
`.get(period, 1440)` default. -/
def fallbackPoints (period : String) : ℕ :=
  if period = "h" then 60
  else if period = "D" then 1440
  else if period = "W" then 2016
  else if period = "M" then 4320
  else if period = "Y" then 8760
  else 1440

/-- The window filter (lines 222-231): keep samples with
`ts >= now - duration`. -/
def windowFilter (now : ℚ) (duration : ℕ) (data : List Sample) : List Sample :=
  data.filter fun s => decide (now - (duration : ℚ) ≤ s.1)

/-- The downsampling block (lines 253-279): `step = len(filtered) /
max_points` (true division), the sample at index `int(i * step)` for
each `i < max_points` (the index is non-negative, so `int` truncation is
the floor; the `idx < len(filtered)` bounds check of line 262 appears as
the `if h : ...` guard), then the final original sample is appended when
the last selected pair differs from it. -/
def downsample (maxPoints : ℕ) (l : List Sample) : List Sample :=
  let step : ℚ := (l.length : ℚ) / (maxPoints : ℚ)
  let result := (List.range maxPoints).filterMap fun (i : ℕ) =>
    let idx := (floorQ ((i : ℚ) * step)).toNat
    if h : idx < l.length then some (l.get ⟨idx, h⟩) else none
  match l.getLast?, result.getLast? with
  | some lastF, some lastR => if lastR = lastF then result else result ++ [lastF]
  | _, _ => result

/-- Lines 237-243: the window-filtered list, replaced by the last
`fallback_points` samples (`data[-n:]`) when the window is empty and the
input is not. -/
def windowOrFallback (now : ℚ) (data : List Sample) (period : String) : List Sample :=
  if (windowFilter now (periodDuration period) data).isEmpty ∧ ¬data.isEmpty then
    data.drop (data.length - fallbackPoints period)
  else windowFilter now (periodDuration period) data

/-- The list part of `process_data` on non-empty input: window filter,
fallback, then downsampling when over the point budget (line 254). -/
def processList (now : ℚ) (data : List Sample) (period : String) (maxPoints : ℕ) : List Sample :=
  if maxPoints < (windowOrFallback now data period).length then
    downsample maxPoints (windowOrFallback now data period)
  else windowOrFallback now data period

/-- The `data_min` / `data_max` tracking of `process_data`.  The source
folds `if val < data_min` / `if val > data_max` over exactly the
elements of the list it is about to return (the filter pass over the
window-filtered list, recomputed over the fallback suffix at lines
245-251, and recomputed over the downsampled list including the
force-appended tail at lines 256-277), starting from the sentinel pair
`(inf, -inf)`; `none` plays the role of the untouched sentinel. -/
def dataMinMax (l : List Sample) : Option (ℚ × ℚ) :=
  l.foldl
    (fun acc s =>
      match acc with
      | none => some (s.2, s.2)
      | some (lo, hi) => some (if s.2 < lo then s.2 else lo, if hi < s.2 then s.2 else hi))
    none

/-- `⌊log10 q⌋` for `q ≥ 1`: repeated division by 10 (structural fuel
recursion so that the kernel can evaluate it). -/
def log10Aux : ℕ → ℕ → ℕ
  | 0, _ => 0
  | fuel + 1, n => if n < 10 then 0 else log10Aux fuel (n / 10) + 1

/-- `⌈log10 n⌉` for `n ≥ 1`: repeated ceiling-division by 10. -/
def clog10Aux : ℕ → ℕ → ℕ
  | 0, _ => 0
  | fuel + 1, n => if n ≤ 1 then 0 else clog10Aux fuel ((n + 9) / 10) + 1

/-- `math.floor(math.log10(q))` for a positive rational `q`: for
`q ≥ 1` the number of decimal digits of `⌊q⌋` minus one; for `q < 1`
minus the number of factors of 10 needed to reach `1/q` (junk `0` for
`q ≤ 0`, where `math.log10` raises — the source only applies it to its
positive `data_range`). -/
def log10Floor (q : ℚ) : ℤ :=
  if 1 ≤ q then (log10Aux (floorQ q).toNat (floorQ q).toNat : ℤ)
  else if 0 < q then -(clog10Aux (ceilQ q⁻¹).toNat (ceilQ q⁻¹).toNat : ℤ)
  else 0

/-- The Y-range computation of `process_data` (lines 285-304) from the
tracked minimum and maximum: degenerate-span replacement (`0.1 * |max|`,
or `1` at zero), 15% padding, snapping to the nice step
`10 ^ floor(log10(range)) / 10` floored at `0.01`, and the final `±1`
widening when the bounds collapsed. -/
def computeRange (dmin dmax : ℚ) : ℚ × ℚ :=
  let r0 := dmax - dmin
  let dr := if r0 = 0 then (if dmax ≠ 0 then |dmax| * (1 / 10) else 1) else r0
  let padding := dr * (3 / 20)
  let ymin0 := dmin - padding
  let ymax0 := dmax + padding
  let p :=
    if 0 < dr then
      let mag : ℚ := (10 : ℚ) ^ log10Floor dr
      let s0 := mag / 10
      let s := if s0 < 1 / 100 then 1 / 100 else s0
      ((floorQ (ymin0 / s) : ℚ) * s, (ceilQ (ymax0 / s) : ℚ) * s)
    else (ymin0, ymax0)
  if p.1 = p.2 then (p.1 - 1, p.2 + 1) else p

/-- `process_data` (lines 202-305) with `time.time()` injected as
`now`.  Empty input returns `([], 0, 100)`; otherwise the list pipeline
runs and the Y-range is computed from the tracked min/max, with the
untouched `inf` sentinel (empty final list) yielding `(0, 100)`. -/
def process_data (now : ℚ) (data : List Sample) (period : String) (maxPoints : ℕ) :
    List Sample × ℚ × ℚ :=
  if data.isEmpty then ([], 0, 100)
  else
    let result := processList now data period maxPoints
    match dataMinMax result with
    | none => (result, 0, 100)
    | some (dmin, dmax) => (result, computeRange dmin dmax)

/-! ## Label generator (`generate_x_labels`, lines 308-362)

The label text is produced by `strftime` and is irrelevant to the
claims; a label is embedded as `(tick timestamp, position)`. -/

/-- The per-period label interval (lines 319-341). -/
def labelInterval (period : String) (duration : ℚ) : ℚ :=
  if period = "h" then (if duration < 3600 then 600 else 900)
  else if period = "D" then 2 * 3600
  else if period = "W" then 24 * 3600
  else if period = "M" then 5 * 24 * 3600
  else if period = "Y" then 30 * 24 * 3600
  else duration / 10

/-- `generate_x_labels` (lines 308-362).  The `while current <= end_ts`
loop emits ticks `start + k * interval`; for a positive interval these
are the `⌊duration / interval⌋ + 1` ticks with `k ≤ duration/interval`
(none when `duration < 0`).  When the interval is not positive the
Python loop never terminates (e.g. an unrecognized period with zero
span gives `interval = 0`); that divergence is modelled as `none`.
After the loop, an end label at position 100 is appended when the last
emitted label sits at a position below 95. -/
def generate_x_labels (period : String) (data : List Sample) : Option (List (ℚ × ℚ)) :=
  match data.head?, data.getLast? with
  | some first, some last =>
    let startTs := first.1
    let endTs := last.1
    let duration := endTs - startTs
    let interval := labelInterval period duration
    if 0 < interval then
      let count := if duration < 0 then 0 else ((floorQ (duration / interval)).toNat + 1)
      let ticks := (List.range count).map fun (k : ℕ) => startTs + (k : ℚ) * interval
      let labels := ticks.map fun t =>
        (t, if 0 < duration then ((t - startTs) / duration) * 100 else 50)
      match labels.getLast? with
      | some l => if l.2 < 95 then some (labels ++ [(endTs, 100)]) else some labels
      | none => some labels
    else none
  | _, _ => some []

/-! ## The `main` pipeline (lines 1030-1067)

Only the data path is modelled: HTML rendering, option parsing and file
output are presentation.  `main` parses the file and, `if not data`,
reports the parse failure and returns — `parse_rrd4j_values_only` has no
caller anywhere in the program. -/

/-- Outcome of `main`'s data pipeline: the two `click.echo(...err=True);
return 1` failure paths, divergence of the label loop, or a rendered
chart's inputs. -/
inductive MainOutcome where
  | parseError
  | noDataError
  | diverge
  | chart (samples : List Sample) (yMin yMax : ℚ) (labels : List (ℚ × ℚ))
deriving DecidableEq, Repr

/-- The data pipeline of `main` (lines 1041-1057): `parse_rrd4j_file`,
failure reported when it yields nothing; `process_data`; failure when
that is empty; then chart data and labels.  `int(time.time())` inside
the parser is `nowI`, `time.time()` inside `process_data` is `now`. -/
def mainRun (nowI : ℕ) (now : ℚ) (data : List ℕ) (period : String) : MainOutcome :=
  match parseRRD4J nowI data period with
  | none => .parseError
  | some parsed =>
    match process_data now parsed period 500 with
    | (processed, yMin, yMax) =>
      if processed.isEmpty then .noDataError
      else
        match generate_x_labels period processed with
        | none => .diverge
        | some labels => .chart processed yMin yMax labels

/-! ## Spec-side definitions and concrete inputs used by the claims -/

/-- The claim's description of the scanner's grouping, stated
independently of the accumulation loop: the maximal consecutive runs of
plausible values, in order of occurrence. -/
def maximalPlausibleRuns : List DVal → List (List DVal)
  | [] => []
  | v :: rest =>
    if is_valid_sensor_value v then
      (v :: rest.takeWhile is_valid_sensor_value) ::
        maximalPlausibleRuns (rest.dropWhile is_valid_sensor_value)
    else maximalPlausibleRuns rest
termination_by l => l.length
decreasing_by
  · exact Nat.lt_succ_of_le (List.dropWhile_sublist _).length_le
  · exact Nat.lt_succ_self _

/-- The runs of the remaining input given a partially accumulated run
`cur` (the induction invariant tying `scanLoop` to
`maximalPlausibleRuns`). -/
def runsCont (cur l : List DVal) : List (List DVal) :=
  if cur.isEmpty then maximalPlausibleRuns l
  else
    (cur ++ l.takeWhile is_valid_sensor_value) ::
      maximalPlausibleRuns (l.dropWhile is_valid_sensor_value)

/-- Big-endian bytes of the binary64 value `1.0`. -/
def encOne : List ℕ := [63, 240, 0, 0, 0, 0, 0, 0]

/-- Big-endian bytes of the binary64 value `2.0`. -/
def encTwo : List ℕ := [64, 0, 0, 0, 0, 0, 0, 0]

/-- Big-endian bytes of a binary64 NaN. -/
def encNaN : List ℕ := [127, 248, 0, 0, 0, 0, 0, 0]

/-- A buffer whose scan region holds two zero doubles (implausible), a
40-value run of plausible doubles alternating `1.0, 2.0`, two NaNs, a
shorter 35-value plausible run, and trailing zeros: the scanner must
select exactly the 40-value run. -/
def bufC7 : List ℕ :=
  List.replicate 216 0 ++ (List.replicate 20 (encOne ++ encTwo)).flatten ++
    encNaN ++ encNaN ++ (List.replicate 35 encOne).flatten ++ List.replicate 16 0

/-- A buffer with no qualifying block: every double in the scan region
decodes to `0.0`, which is implausible. -/
def bufC7none : List ℕ := List.replicate 300 0

/-- A file on which the structured parser fails (`arcCount = 0`, so the
archive list is empty and `max` raises) while the heuristic scanner
succeeds: the bytes from offset 200 hold 30 consecutive doubles `1.0`. -/
def bytesC1 : List ℕ :=
  List.replicate 200 0 ++ (List.replicate 30 encOne).flatten ++ List.replicate 8 0

/-! ## Helper lemmas -/

theorem reorderValues_length (p : ℕ) (v : List DVal) :
    (reorderValues p v).length = v.length := by
  unfold reorderValues
  split
  · rename_i h
    simp only [List.length_append, List.length_drop, List.length_take]
    omega
  · rfl

theorem readF64s_length {data : List ℕ} {off n : ℕ} {vs : List DVal}
    (h : readF64s data off n = some vs) : vs.length = n := by
  unfold readF64s at h
  split at h
  · cases h
    simp
  · cases h

theorem readArchives_values_length :
    ∀ (n : ℕ) (data : List ℕ) (dsCount off : ℕ) (l : List ArchiveRec),
      readArchives data dsCount n off = some l → ∀ a ∈ l, a.values.length = a.rows := by
  intro n
  induction n with
  | zero =>
    intro data ds off l h a ha
    simp only [readArchives, Option.some.injEq] at h
    subst h
    simp at ha
  | succ n ih =>
    intro data ds off l h a ha
    unfold readArchives at h
    split at h
    · split at h
      · split at h
        · rename_i pointer values hp hv xopt rest hrest
          cases h
          rcases List.mem_cons.mp ha with rfl | hmem
          · simpa [reorderValues_length] using readF64s_length hv
          · exact ih data ds _ _ hrest a hmem
        · cases h
      · cases h
    · cases h

theorem find?_decomp (p : α → Bool) :
    ∀ (l : List α) (a : α), l.find? p = some a →
      ∃ pre post, l = pre ++ a :: post ∧ p a = true ∧ ∀ b ∈ pre, p b = false := by
  intro l
  induction l with
  | nil => intro a h; cases h
  | cons x t ih =>
    intro a h
    by_cases hx : p x = true
    · rw [List.find?_cons_of_pos _ hx] at h
      cases h
      exact ⟨[], t, rfl, hx, by simp⟩
    · rw [List.find?_cons_of_neg _ (by simpa using hx)] at h
      obtain ⟨pre, post, hl, hpa, hpre⟩ := ih a h
      refine ⟨x :: pre, post, by simp [hl], hpa, ?_⟩
      intro b hb
      rcases List.mem_cons.mp hb with rfl | hb
      · simpa using hx
      · exact hpre b hb

theorem foldlMax_decomp (f : α → ℕ) :
    ∀ (xs : List α) (x : α),
      ∃ pre post,
        x :: xs = pre ++ (xs.foldl (fun acc z => if f acc < f z then z else acc) x) :: post ∧
        (∀ z ∈ pre, f z < f (xs.foldl (fun acc z => if f acc < f z then z else acc) x)) ∧
        ∀ z ∈ x :: xs, f z ≤ f (xs.foldl (fun acc z => if f acc < f z then z else acc) x) := by
  intro xs
  induction xs with
  | nil =>
    intro x
    exact ⟨[], [], rfl, by simp, by simp⟩
  | cons y ys ih =>
    intro x
    have hfold : (y :: ys).foldl (fun acc z => if f acc < f z then z else acc) x
        = ys.foldl (fun acc z => if f acc < f z then z else acc) (if f x < f y then y else x) := by
      simp [List.foldl_cons]
    by_cases hxy : f x < f y
    · obtain ⟨pre, post, hdec, hpre, hall⟩ := ih y
      rw [hfold, if_pos hxy]
      have hr : f y ≤ f (ys.foldl (fun acc z => if f acc < f z then z else acc) y) :=
        hall y (by simp)
      refine ⟨x :: pre, post, ?_, ?_, ?_⟩
      · rw [List.cons_append, ← hdec]
      · intro z hz
        rcases List.mem_cons.mp hz with rfl | hz
        · exact lt_of_lt_of_le hxy hr
        · exact hpre z hz
      · intro z hz
        rcases List.mem_cons.mp hz with rfl | hz
        · exact le_of_lt (lt_of_lt_of_le hxy hr)
        · exact hall z hz
    · obtain ⟨pre, post, hdec, hpre, hall⟩ := ih x
      rw [hfold, if_neg hxy]
      have hyx : f y ≤ f x := le_of_not_lt hxy
      have hr : f x ≤ f (ys.foldl (fun acc z => if f acc < f z then z else acc) x) :=
        hall x (by simp)
      rcases pre with _ | ⟨p0, pre'⟩
      · simp only [List.nil_append] at hdec
        obtain ⟨hx0, hpost⟩ := List.cons_eq_cons.mp hdec
        refine ⟨[], y :: ys, ?_, by simp, ?_⟩
        · rw [List.nil_append, ← hx0]
        · intro z hz
          rcases List.mem_cons.mp hz with rfl | hz
          · exact hr
          · rcases List.mem_cons.mp hz with rfl | hz
            · exact le_trans hyx hr
            · exact hall z (List.mem_cons_of_mem _ hz)
      · rw [List.cons_append] at hdec
        obtain ⟨hp0, htail⟩ := List.cons_eq_cons.mp hdec
        refine ⟨x :: y :: pre', post, ?_, ?_, ?_⟩
        · rw [List.cons_append, List.cons_append, ← htail]
        · intro z hz
          have hxr : f x < f (ys.foldl (fun acc z => if f acc < f z then z else acc) x) := by
            have := hpre p0 (by simp)
            rwa [← hp0] at this
          rcases List.mem_cons.mp hz with rfl | hz
          · exact hxr
          · rcases List.mem_cons.mp hz with rfl | hz
            · exact lt_of_le_of_lt hyx hxr
            · exact hpre z (List.mem_cons_of_mem _ hz)
        · intro z hz
          rcases List.mem_cons.mp hz with rfl | hz
          · exact hr
          · rcases List.mem_cons.mp hz with rfl | hz
            · exact le_trans hyx hr
            · exact hall z (List.mem_cons_of_mem _ hz)

theorem pythonMaxBy_decomp (f : α → ℕ) (l : List α) (hl : l ≠ []) :
    ∃ a pre post, pythonMaxBy f l = some a ∧ l = pre ++ a :: post ∧
      (∀ z ∈ pre, f z < f a) ∧ ∀ z ∈ l, f z ≤ f a := by
  rcases l with _ | ⟨x, xs⟩
  · exact absurd rfl hl
  · obtain ⟨pre, post, hdec, hpre, hall⟩ := foldlMax_decomp f xs x
    exact ⟨_, pre, post, rfl, hdec, hpre, hall⟩

theorem filterMap_eq_map_filter' (f : α → Option β) (p : α → Bool) (g : α → β)
    (l : List α) (h : ∀ x ∈ l, f x = if p x then some (g x) else none) :
    l.filterMap f = (l.filter p).map g := by
  induction l with
  | nil => rfl
  | cons x t ih =>
    have hx := h x (by simp)
    have ht : ∀ y ∈ t, f y = if p y then some (g y) else none :=
      fun y hy => h y (List.mem_cons_of_mem _ hy)
    by_cases hp : p x = true
    · rw [List.filterMap_cons, hx, if_pos hp, List.filter_cons_of_pos hp, List.map_cons, ih ht]
    · rw [List.filterMap_cons, hx, if_neg hp,
        List.filter_cons_of_neg (by simpa using hp), ih ht]

/-! ## Claim C2 -/

/-- C2: for every archive read by the Format Parser with values list `v`
of length `rowCount` and write pointer `p`, if `0 < p < rowCount` the
stored chronological order is `v[p:] ++ v[0:p]`, and otherwise the
values are used exactly as read.  The reordering tests `p` against
`len(values)`, which equals `rowCount` for every archive the parser
materializes (third conjunct). -/
theorem c2_reorder :
    (∀ (p : ℕ) (v : List DVal), 0 < p → p < v.length →
        reorderValues p v = v.drop p ++ v.take p)
    ∧ (∀ (p : ℕ) (v : List DVal), ¬(0 < p ∧ p < v.length) → reorderValues p v = v)
    ∧ (∀ (data : List ℕ) (dsCount n off : ℕ) (l : List ArchiveRec),
        readArchives data dsCount n off = some l → ∀ a ∈ l, a.values.length = a.rows) := by
  refine ⟨?_, ?_, ?_⟩
  · intro p v h1 h2
    unfold reorderValues
    rw [if_pos ⟨h1, h2⟩]
  · intro p v h
    unfold reorderValues
    rw [if_neg h]
  · exact fun data ds n off l h => readArchives_values_length n data ds off l h

/-- Witness for C2 at a concrete rotation and a concrete
pointer-out-of-range input. -/
theorem c2_reorder_witness :
    reorderValues 2 [DVal.fin 1, DVal.fin 2, DVal.fin 3] = [DVal.fin 3, DVal.fin 1, DVal.fin 2]
    ∧ reorderValues 0 [DVal.fin 1, DVal.fin 2] = [DVal.fin 1, DVal.fin 2] := by
  constructor
  · exact (c2_reorder.1 2 [DVal.fin 1, DVal.fin 2, DVal.fin 3] (by decide) (by decide)).trans
      (by decide)
  · exact c2_reorder.2.1 0 [DVal.fin 1, DVal.fin 2] (by decide)

/-! ## Claim C10 -/

/-- C10: for every input file whose parsed header has `arcCount = 0`
(the 4-byte big-endian field at offset 52, readable whenever the header
itself is readable, i.e. the file has at least 64 bytes), the Format
Parser reports failure (`None`): the selection loop is vacuous on the
empty archive list and `max([])` raises a `ValueError` caught by the
surrounding `except`. -/
theorem c10_no_archives : ∀ (nowI : ℕ) (data : List ℕ) (period : String),
    64 ≤ data.length → readU data 52 4 = some 0 →
    parseRRD4J nowI data period = none := by
  intro nowI data period hlen harc
  unfold parseRRD4J
  have h40 : readU data 40 8 = some (((data.drop 40).take 8).foldl (fun a b => a * 256 + b) 0) := by
    unfold readU
    rw [if_pos (by omega)]
  have h48 : readU data 48 4 = some (((data.drop 48).take 4).foldl (fun a b => a * 256 + b) 0) := by
    unfold readU
    rw [if_pos (by omega)]
  have h56 : readU data 56 8 = some (((data.drop 56).take 8).foldl (fun a b => a * 256 + b) 0) := by
    unfold readU
    rw [if_pos (by omega)]
  rw [h40, h48, harc, h56]
  simp [readArchives, selectArchive, pythonMaxBy]

/-- Witness for C10: the all-zero 64-byte file. -/
theorem c10_no_archives_witness : parseRRD4J 0 (List.replicate 64 0) "D" = none :=
  c10_no_archives 0 (List.replicate 64 0) "D" (by simp) (by decide)

/-! ## Claim C1 (corrected) -/

/-- C1, as stated, is false: on `bytesC1` the structured parser fails
(`arcCount = 0`) and the Heuristic Scanner would succeed with a
30-sample block, yet `main` surfaces the failure to the caller without
ever invoking `parse_rrd4j_values_only` — no call to it exists anywhere
in the program. -/
theorem c1_counterexample :
    mainRun 0 0 bytesC1 "D" = MainOutcome.parseError
    ∧ (parse_rrd4j_values_only 0 bytesC1).map List.length = some 30 := by
  exact ⟨by with_unfolding_all decide, by with_unfolding_all decide⟩

/-- C1 amended: when the Format Parser fails or yields zero samples,
`main` reports the failure to the caller directly; the Heuristic
Scanner is never invoked, so its potential success does not avert the
failure. -/
theorem c1_amended : ∀ (nowI : ℕ) (now : ℚ) (data : List ℕ) (period : String),
    parseRRD4J nowI data period = none →
    mainRun nowI now data period = MainOutcome.parseError := by
  intro nowI now data period h
  unfold mainRun
  rw [h]

/-- Witness for the amended C1 at the empty file. -/
theorem c1_amended_witness : mainRun 0 0 [] "D" = MainOutcome.parseError :=
  c1_amended 0 0 [] "D" (by decide)

/-! ## Claim C8 (corrected) -/

/-- C8, as stated, is false: on a zero-span input the Label Generator
emits the tick label at position 50 and then, because `50 < 95`, appends
the end label at position 100 — two labels, not a single one. -/
theorem c8_counterexample :
    generate_x_labels "h" [((9 : ℚ), (5 : ℚ))] =
      some [((9 : ℚ), 50), ((9 : ℚ), 100)]
    ∧ (generate_x_labels "h" [((9 : ℚ), (5 : ℚ))]).map List.length ≠ some 1 := by
  exact ⟨by with_unfolding_all decide, by with_unfolding_all decide⟩

theorem labels_zero_span (period : String) (data : List Sample) (f l : Sample)
    (hf : data.head? = some f) (hl : data.getLast? = some l) (heq : f.1 = l.1)
    (hpos : 0 < labelInterval period 0) :
    generate_x_labels period data = some [(f.1, 50), (f.1, 100)] := by
  unfold generate_x_labels
  rw [hf, hl]
  have hdur : l.1 - f.1 = 0 := by rw [← heq]; ring
  have hfl : (floorQ 0).toNat = 0 := by with_unfolding_all decide
  simp only [hdur, if_pos hpos, lt_irrefl, if_false, zero_div, hfl]
  norm_num [List.range_succ, ← heq]

/-- C8 amended: for every non-empty input whose first timestamp equals
its last timestamp and a recognized period tag, the Label Generator
emits exactly two labels: the zero-span tick at position 50 followed by
the end label at position 100. -/
theorem c8_amended : ∀ (period : String) (data : List Sample) (f l : Sample),
    (period = "h" ∨ period = "D" ∨ period = "W" ∨ period = "M" ∨ period = "Y") →
    data.head? = some f → data.getLast? = some l → f.1 = l.1 →
    generate_x_labels period data = some [(f.1, 50), (f.1, 100)] := by
  intro period data f l hper hf hl heq
  rcases hper with rfl | rfl | rfl | rfl | rfl <;>
    exact labels_zero_span _ data f l hf hl heq (by with_unfolding_all decide)

/-- Witness for the amended C8 at a singleton input. -/
theorem c8_amended_witness :
    generate_x_labels "h" [((7 : ℚ), (1 : ℚ))] = some [((7 : ℚ), 50), ((7 : ℚ), 100)] :=
  c8_amended "h" [((7 : ℚ), (1 : ℚ))] ((7 : ℚ), (1 : ℚ)) ((7 : ℚ), (1 : ℚ))
    (Or.inl rfl) rfl rfl rfl

/-! ## Claim C3 -/

theorem filter_getLast?_of_pos (p : α → Bool) :
    ∀ (l : List α) (a : α), l.getLast? = some a → p a = true →
      (l.filter p).getLast? = some a := by
  intro l
  induction l with
  | nil => intro a h; cases h
  | cons x t ih =>
    intro a h hp
    cases t with
    | nil =>
      simp only [List.getLast?_singleton, Option.some.injEq] at h
      subst h
      rw [List.filter_cons_of_pos hp]
      simp
    | cons y u =>
      have h' : (y :: u).getLast? = some a := by rwa [List.getLast?_cons_cons] at h
      have hne := ih a h' hp
      by_cases hx : p x = true
      · rw [List.filter_cons_of_pos hx]
        obtain ⟨z, w, hzw⟩ : ∃ z w, List.filter p (y :: u) = z :: w := by
          cases hcase : List.filter p (y :: u) with
          | nil => rw [hcase] at hne; cases hne
          | cons z w => exact ⟨z, w, rfl⟩
        rw [hzw, List.getLast?_cons_cons, ← hzw]
        exact hne
      · rwa [List.filter_cons_of_neg (by simpa using hx)]

theorem buildPairs_eq (lu : ℚ) (S : ℕ) (vs : List DVal) :
    buildPairs lu S vs = (vs.enum.filter fun p => p.2.isFinite).map
      (fun p => (lu - ((vs.length : ℚ) - (p.1 : ℚ) - 1) * (S : ℚ), p.2.toRat)) := by
  unfold buildPairs
  apply filterMap_eq_map_filter'
  intro x hx
  have hxlt : x.1 < vs.length := by
    obtain ⟨i, a⟩ := x
    have h2 := List.mk_mem_enum_iff_getElem?.mp hx
    exact (List.getElem?_eq_some.mp h2).1
  have hcast : ((vs.length - x.1 - 1 : ℕ) : ℚ) = (vs.length : ℚ) - (x.1 : ℚ) - 1 := by
    have h1 : x.1 + 1 ≤ vs.length := hxlt
    rw [Nat.sub_sub, Nat.cast_sub h1]
    push_cast
    ring
  by_cases hfin : x.2.isFinite = true
  · simp [hfin, hcast]
  · simp [hfin]

theorem buildPairs_getLast (lu : ℚ) (S : ℕ) (vs : List DVal) (h : vs ≠ [])
    (hfin : (vs.getLast h).isFinite = true) :
    (buildPairs lu S vs).getLast? = some (lu, (vs.getLast h).toRat) := by
  rw [buildPairs_eq, List.getLast?_map]
  have hlen : 0 < vs.length := List.length_pos.mpr h
  have henum_last : vs.enum.getLast? = some (vs.length - 1, vs.getLast h) := by
    rw [List.getLast?_eq_get?, List.enum_length]
    rw [show List.get? vs.enum (vs.length - 1) = vs.enum[vs.length - 1]? from List.get?_eq_getElem? _ _]
    rw [List.getElem?_enum]
    rw [show vs[vs.length - 1]? = List.get? vs (vs.length - 1) from (List.get?_eq_getElem? _ _).symm]
    rw [← List.getLast?_eq_get?, List.getLast?_eq_getLast vs h]
    rfl
  rw [filter_getLast?_of_pos _ _ _ henum_last (by simpa using hfin)]
  have hts : (vs.length : ℚ) - ((vs.length - 1 : ℕ) : ℚ) - 1 = 0 := by
    rw [Nat.cast_sub hlen]
    push_cast
    ring
  simp only [Option.map_some', hts, zero_mul, sub_zero]

theorem buildPairs_nil_of_nonFinite (lu : ℚ) (S : ℕ) (vs : List DVal)
    (h : ∀ v ∈ vs, v.isFinite = false) : buildPairs lu S vs = [] := by
  rw [buildPairs_eq]
  have : vs.enum.filter (fun p => p.2.isFinite) = [] := by
    rw [List.filter_eq_nil_iff]
    intro x hx
    have hsnd : x.2 ∈ vs := by
      obtain ⟨i, a⟩ := x
      have h2 := List.mk_mem_enum_iff_getElem?.mp hx
      exact List.getElem?_mem h2
    simp [h x.2 hsnd]
  rw [this, List.map_nil]

/-- C3: for a selected archive with `N` chronologically-ordered values,
combined step `S` and last-update time `lu`, the Format Parser emits
exactly the pairs `(lu - (N - i - 1) * S, v_i)` for the indices `i`
whose value is finite, in order, without renumbering the surviving
timestamps (first conjunct); when the newest value survives, the most
recent sample's timestamp is exactly `lu` (second conjunct); the
spec's fabricated 5-row archive with `step=60`, `stepsMultiplier=1`,
`lastUpdate=1000300` yields the timestamps `1000060 … 1000300` (third
conjunct); and an archive whose values are all non-finite makes the
parser report no usable data (fourth conjunct). -/
theorem c3_samples :
    (∀ (lu : ℚ) (S : ℕ) (vs : List DVal),
        buildPairs lu S vs = (vs.enum.filter fun p => p.2.isFinite).map
          (fun p => (lu - ((vs.length : ℚ) - (p.1 : ℚ) - 1) * (S : ℚ), p.2.toRat)))
    ∧ (∀ (lu : ℚ) (S : ℕ) (vs : List DVal) (h : vs ≠ []),
        (vs.getLast h).isFinite = true →
        (buildPairs lu S vs).getLast? = some (lu, (vs.getLast h).toRat))
    ∧ buildPairs 1000300 60 [DVal.fin 1, DVal.fin 2, DVal.fin 3, DVal.fin 4, DVal.fin 5] =
        [(1000060, 1), (1000120, 2), (1000180, 3), (1000240, 4), (1000300, 5)]
    ∧ (∀ (lu : ℚ) (S : ℕ) (vs : List DVal),
        (∀ v ∈ vs, v.isFinite = false) → archiveSamples lu S vs = none) := by
  refine ⟨buildPairs_eq, fun lu S vs h hfin => buildPairs_getLast lu S vs h hfin, ?_, ?_⟩
  · simp [buildPairs, List.enum, List.enumFrom, DVal.isFinite, DVal.toRat]
    norm_num
  intro lu S vs h
  unfold archiveSamples
  rw [buildPairs_nil_of_nonFinite lu S vs h]
  rfl

/-- Witness for C3 at a concrete archive whose middle value is NaN. -/
theorem c3_samples_witness :
    (buildPairs 10 2 [DVal.fin 7, DVal.nan, DVal.fin 9]).getLast? = some (10, 9) ∧
    archiveSamples 10 2 [DVal.nan, DVal.inf] = none := by
  constructor
  · exact c3_samples.2.1 10 2 [DVal.fin 7, DVal.nan, DVal.fin 9] (by simp) (by decide)
  · exact c3_samples.2.2.2 10 2 [DVal.nan, DVal.inf] (by decide)

/-! ## Claim C5 -/

/-- C5: on a non-empty archive list the Archive Selector returns the
first archive (in file order) whose coverage is at least 80% of the
requested duration; when no archive qualifies it returns the archive of
greatest coverage with ties broken by first occurrence (every earlier
archive has strictly smaller coverage).  The two concrete examples of
the spec are the final conjuncts. -/
theorem c5_select :
    (∀ (step : ℕ) (archives : List ArchiveRec) (period : String), archives ≠ [] →
      ∃ a pre post, selectArchive step archives period = some a ∧
        archives = pre ++ a :: post ∧
        ((archiveQualifies step period a = true ∧
            ∀ b ∈ pre, archiveQualifies step period b = false)
          ∨ ((∀ b ∈ archives, archiveQualifies step period b = false) ∧
             (∀ b ∈ archives, coverage step b ≤ coverage step a) ∧
             ∀ b ∈ pre, coverage step b < coverage step a)))
    ∧ selectArchive 1 [⟨1, 3600, 0, []⟩, ⟨1, 86400, 0, []⟩, ⟨1, 604800, 0, []⟩] "D"
        = some ⟨1, 86400, 0, []⟩
    ∧ selectArchive 1 [⟨1, 3600, 0, []⟩] "Y" = some ⟨1, 3600, 0, []⟩ := by
  have hq3600D : archiveQualifies 1 "D" ⟨1, 3600, 0, []⟩ = false := by
    unfold archiveQualifies
    rw [show periodDuration "D" = 86400 from rfl, show coverage 1 ⟨1, 3600, 0, []⟩ = 3600 from rfl]
    simp only [decide_eq_false_iff_not]
    push_cast
    norm_num
  have hq86400D : archiveQualifies 1 "D" ⟨1, 86400, 0, []⟩ = true := by
    unfold archiveQualifies
    rw [show periodDuration "D" = 86400 from rfl,
      show coverage 1 ⟨1, 86400, 0, []⟩ = 86400 from rfl]
    simp only [decide_eq_true_eq]
    push_cast
    norm_num
  have hq3600Y : archiveQualifies 1 "Y" ⟨1, 3600, 0, []⟩ = false := by
    unfold archiveQualifies
    rw [show periodDuration "Y" = 31536000 from rfl,
      show coverage 1 ⟨1, 3600, 0, []⟩ = 3600 from rfl]
    simp only [decide_eq_false_iff_not]
    push_cast
    norm_num
  refine ⟨?_, ?_, ?_⟩
  case refine_2 =>
    unfold selectArchive
    rw [List.find?_cons_of_neg _ (by simp [hq3600D]), List.find?_cons_of_pos _ hq86400D]
  case refine_3 =>
    unfold selectArchive
    rw [List.find?_cons_of_neg _ (by simp [hq3600Y])]
    rfl
  intro step archives period hne
  unfold selectArchive
  cases hfind : archives.find? (archiveQualifies step period) with
  | some a =>
    obtain ⟨pre, post, hdec, hq, hpre⟩ := find?_decomp _ archives a hfind
    exact ⟨a, pre, post, rfl, hdec, Or.inl ⟨hq, hpre⟩⟩
  | none =>
    have hnone := List.find?_eq_none.mp hfind
    obtain ⟨a, pre, post, hmax, hdec, hpre, hall⟩ := pythonMaxBy_decomp (coverage step) archives hne
    refine ⟨a, pre, post, hmax, hdec, Or.inr ⟨?_, hall, hpre⟩⟩
    intro b hb
    simpa using hnone b hb

/-- Witness for C5 at a concrete singleton archive list. -/
theorem c5_select_witness :
    ∃ a pre post,
      selectArchive 1 [({ steps := 1, rows := 3600, pointer := 0, values := [] } : ArchiveRec)] "h"
          = some a ∧
      [({ steps := 1, rows := 3600, pointer := 0, values := [] } : ArchiveRec)] = pre ++ a :: post ∧
      ((archiveQualifies 1 "h" a = true ∧ ∀ b ∈ pre, archiveQualifies 1 "h" b = false)
        ∨ ((∀ b ∈ [({ steps := 1, rows := 3600, pointer := 0, values := [] } : ArchiveRec)],
              archiveQualifies 1 "h" b = false) ∧
           (∀ b ∈ [({ steps := 1, rows := 3600, pointer := 0, values := [] } : ArchiveRec)],
              coverage 1 b ≤ coverage 1 a) ∧
           ∀ b ∈ pre, coverage 1 b < coverage 1 a)) :=
  c5_select.1 1 [({ steps := 1, rows := 3600, pointer := 0, values := [] } : ArchiveRec)] "h"
    (by simp)

/-! ## Downsampling lemmas (claims C4 and C9) -/

theorem floorQ_eq (q : ℚ) : floorQ q = ⌊q⌋ := Rat.floor_def.symm

theorem ceilQ_eq (q : ℚ) : ceilQ q = ⌈q⌉ := by
  rw [ceilQ, floorQ_eq, Int.floor_neg, neg_neg]

/-- `int(i * (len/B))` is the natural-number division `i * len / B`. -/
theorem floorQ_mul_div (i len B : ℕ) :
    (floorQ ((i : ℚ) * ((len : ℚ) / (B : ℚ)))).toNat = i * len / B := by
  have hcast : (i : ℚ) * ((len : ℚ) / (B : ℚ)) = ((i * len : ℕ) : ℚ) / ((B : ℕ) : ℚ) := by
    push_cast
    ring
  rw [floorQ_eq, Int.floor_toNat, hcast, Nat.floor_div_nat, Nat.floor_natCast]

theorem sel_idx_lt {i len B : ℕ} (hB : 0 < B) (hi : i < B) (hlen : B < len) :
    i * len / B < len := by
  rw [Nat.div_lt_iff_lt_mul hB]
  have hlen0 : 0 < len := lt_of_le_of_lt (Nat.zero_le _) hlen
  calc i * len < B * len := (Nat.mul_lt_mul_right hlen0).mpr hi
  _ = len * B := Nat.mul_comm _ _

theorem sel_idx_strictMono {i j len B : ℕ} (hB : 0 < B) (hij : i < j) (hlen : B < len) :
    i * len / B < j * len / B := by
  have h1 : i * len + len ≤ j * len := by
    calc i * len + len = (i + 1) * len := by ring
    _ ≤ j * len := Nat.mul_le_mul_right len (Nat.succ_le_of_lt hij)
  have hstep : i * len + B < j * len := by omega
  calc i * len / B < i * len / B + 1 := Nat.lt_succ_self _
  _ = (i * len + B) / B := (Nat.add_div_right _ hB).symm
  _ ≤ j * len / B := Nat.div_le_div_right (le_of_lt hstep)

/-- Mapping `getD` over a strictly increasing list of in-bounds indices,
all at least `m`, yields a sublist of `drop m`. -/
theorem getD_map_sublist_from {α : Type _} (d : α) :
    ∀ (is : List ℕ) (l : List α) (m : ℕ), is.Pairwise (· < ·) →
      (∀ i ∈ is, i < l.length) → (∀ i ∈ is, m ≤ i) →
      List.Sublist (is.map fun i => l.getD i d) (l.drop m) := by
  intro is
  induction is with
  | nil => intro l m _ _ _; simp
  | cons i it ih =>
    intro l m hpw hbound hlow
    have hi : i < l.length := hbound i (by simp)
    have hgt : ∀ j ∈ it, i < j := fun j hj => (List.pairwise_cons.mp hpw).1 j hj
    have htail : List.Sublist (it.map fun j => l.getD j d) (l.drop (i + 1)) := by
      apply ih l (i + 1) (List.pairwise_cons.mp hpw).2
      · intro j hj
        exact hbound j (List.mem_cons_of_mem _ hj)
      · intro j hj
        exact Nat.succ_le_of_lt (hgt j hj)
    have hmid : List.Sublist ((i :: it).map fun j => l.getD j d) (l.drop i) := by
      have hhead : l.getD i d = l.get ⟨i, hi⟩ := by
        simp [List.getD_eq_getElem?_getD, List.getElem?_eq_getElem hi, List.get_eq_getElem]
      simp only [List.map_cons, hhead]
      rw [List.drop_eq_get_cons hi]
      exact List.Sublist.cons₂ _ htail
    exact List.Sublist.trans hmid (List.drop_sublist_drop_left l (hlow i (by simp)))

/-- Mapping `getD` over a strictly increasing list of in-bounds indices
yields a sublist. -/
theorem getD_map_sublist {α : Type _} (d : α) (is : List ℕ) (l : List α)
    (hpw : is.Pairwise (· < ·)) (hbound : ∀ i ∈ is, i < l.length) :
    List.Sublist (is.map fun i => l.getD i d) l := by
  have := getD_map_sublist_from d is l 0 hpw hbound (fun i _ => Nat.zero_le i)
  simpa using this

/-- The selection loop of `downsample` in closed form. -/
theorem downsample_sel (l : List Sample) (B : ℕ) (hB : 0 < B) (hlen : B < l.length) :
    ((List.range B).filterMap fun (i : ℕ) =>
      if h : (floorQ ((i : ℚ) * ((l.length : ℚ) / (B : ℚ)))).toNat < l.length then
        some (l.get ⟨(floorQ ((i : ℚ) * ((l.length : ℚ) / (B : ℚ)))).toNat, h⟩)
      else none)
    = (List.range B).map fun i => l.getD (i * l.length / B) ((0 : ℚ), (0 : ℚ)) := by
  rw [filterMap_eq_map_filter' _ (fun _ => true)
      (fun i => l.getD (i * l.length / B) ((0 : ℚ), (0 : ℚ))) (List.range B) ?_]
  · congr 1
    apply List.filter_eq_self.mpr
    intro a _
    rfl
  · intro i hi
    have hiB : i < B := List.mem_range.mp hi
    have hidx0 : (floorQ ((i : ℚ) * ((l.length : ℚ) / (B : ℚ)))).toNat = i * l.length / B :=
      floorQ_mul_div i l.length B
    have hlt : i * l.length / B < l.length := sel_idx_lt hB hiB hlen
    have hlt' : (floorQ ((i : ℚ) * ((l.length : ℚ) / (B : ℚ)))).toNat < l.length := by
      rwa [hidx0]
    rw [dif_pos hlt']
    have hget : l.getD (i * l.length / B) ((0 : ℚ), (0 : ℚ)) = l.get ⟨i * l.length / B, hlt⟩ := by
      simp [List.getD_eq_getElem?_getD, List.getElem?_eq_getElem hlt, List.get_eq_getElem]
    simp only [hidx0, if_true, hget]

/-- `downsample` in closed form: the evenly-spaced selection, with the
final original sample appended exactly when the last selected pair
differs from it. -/
theorem downsample_eq (l : List Sample) (B : ℕ) (hB : 0 < B) (hlen : B < l.length) :
    downsample B l =
      (if ((List.range B).map fun i => l.getD (i * l.length / B) ((0 : ℚ), (0 : ℚ))).getLast?
          = l.getLast? then
        (List.range B).map fun i => l.getD (i * l.length / B) ((0 : ℚ), (0 : ℚ))
      else
        ((List.range B).map fun i => l.getD (i * l.length / B) ((0 : ℚ), (0 : ℚ)))
          ++ l.getLast?.toList) := by
  have hlne : l ≠ [] := by
    intro h
    rw [h] at hlen
    simp at hlen
  obtain ⟨lf, hlf⟩ : ∃ lf, l.getLast? = some lf := ⟨l.getLast hlne, List.getLast?_eq_getLast l hlne⟩
  have hselne : ((List.range B).map fun i => l.getD (i * l.length / B) ((0 : ℚ), (0 : ℚ))) ≠ [] := by
    intro h
    have := congrArg List.length h
    simp at this
    omega
  obtain ⟨sr, hsr⟩ : ∃ sr,
      ((List.range B).map fun i => l.getD (i * l.length / B) ((0 : ℚ), (0 : ℚ))).getLast?
        = some sr :=
    ⟨_, List.getLast?_eq_getLast _ hselne⟩
  simp only [downsample]
  rw [downsample_sel l B hB hlen, hlf, hsr]
  by_cases h : sr = lf
  · subst h
    simp
  · simp [h, Option.toList]

theorem downsample_length (l : List Sample) (B : ℕ) (hB : 0 < B) (hlen : B < l.length) :
    (downsample B l).length = B ∨ (downsample B l).length = B + 1 := by
  rw [downsample_eq l B hB hlen]
  have hlne : l ≠ [] := by
    intro h
    rw [h] at hlen
    simp at hlen
  split
  · left
    simp
  · right
    rw [List.length_append]
    have : l.getLast?.toList.length = 1 := by
      rw [List.getLast?_eq_getLast l hlne]
      rfl
    simp [this]

theorem downsample_getLast? (l : List Sample) (B : ℕ) (hB : 0 < B) (hlen : B < l.length) :
    (downsample B l).getLast? = l.getLast? := by
  rw [downsample_eq l B hB hlen]
  have hlne : l ≠ [] := by
    intro h
    rw [h] at hlen
    simp at hlen
  split
  · rename_i heq
    exact heq
  · rw [List.getLast?_eq_getLast l hlne]
    simp [Option.toList, List.getLast?_concat]

/-- `getD` over strictly increasing indices below `M` is a sublist of
`take M`. -/
theorem getD_map_sublist_take {α : Type _} (d : α) (is : List ℕ) (l : List α) (M : ℕ)
    (hpw : is.Pairwise (· < ·)) (hbound : ∀ i ∈ is, i < M) (hM : M ≤ l.length) :
    List.Sublist (is.map fun i => l.getD i d) (l.take M) := by
  have hmap : (is.map fun i => l.getD i d) = is.map fun i => (l.take M).getD i d := by
    apply List.map_congr_left
    intro i hi
    rw [List.getD_eq_getElem?_getD, List.getD_eq_getElem?_getD,
      List.getElem?_take_of_lt (hbound i hi)]
  rw [hmap]
  apply getD_map_sublist
  · exact hpw
  · intro i hi
    rw [List.length_take]
    exact lt_min (hbound i hi) (lt_of_lt_of_le (hbound i hi) hM)

theorem sel_pairwise (l : List Sample) (B : ℕ) (hB : 0 < B) (hlen : B < l.length) :
    ((List.range B).map fun i => i * l.length / B).Pairwise (· < ·) := by
  rw [List.pairwise_map]
  exact (List.pairwise_lt_range B).imp_of_mem
    (fun _ _ hij => sel_idx_strictMono hB hij hlen)

theorem downsample_sublist (l : List Sample) (B : ℕ) (hB : 0 < B) (hlen : B < l.length) :
    List.Sublist (downsample B l) l := by
  have hlne : l ≠ [] := by
    intro h
    rw [h] at hlen
    simp at hlen
  have hmapmap : ((List.range B).map fun i => l.getD (i * l.length / B) ((0 : ℚ), (0 : ℚ)))
      = ((List.range B).map fun i => i * l.length / B).map
          fun n => l.getD n ((0 : ℚ), (0 : ℚ)) := by
    rw [List.map_map]
    rfl
  rw [downsample_eq l B hB hlen]
  split
  · rw [hmapmap]
    apply getD_map_sublist
    · exact sel_pairwise l B hB hlen
    · intro n hn
      rw [List.mem_map] at hn
      obtain ⟨i, hi, rfl⟩ := hn
      exact sel_idx_lt hB (List.mem_range.mp hi) hlen
  · rename_i hne
    -- the last selected index: B - 1 maps to (B-1) * len / B
    obtain ⟨b, rfl⟩ : ∃ b, B = b + 1 := ⟨B - 1, by omega⟩
    have hrangeLast : (List.range (b + 1)).getLast? = some b := by
      rw [List.range_succ, List.getLast?_concat]
    have hselLast :
        (((List.range (b + 1)).map fun i => l.getD (i * l.length / (b + 1)) ((0 : ℚ), (0 : ℚ)))
          ).getLast? = some (l.getD (b * l.length / (b + 1)) ((0 : ℚ), (0 : ℚ))) := by
      rw [List.getLast?_map, hrangeLast]
      rfl
    have hlastIdx : b * l.length / (b + 1) < l.length - 1 := by
      have hlt : b * l.length / (b + 1) < l.length :=
        sel_idx_lt hB (Nat.lt_succ_self b) hlen
      rcases Nat.lt_or_ge (b * l.length / (b + 1)) (l.length - 1) with h | h
      · exact h
      · exfalso
        have heq : b * l.length / (b + 1) = l.length - 1 := by omega
        apply hne
        rw [hselLast, List.getLast?_eq_getLast l hlne, heq]
        have : l.getD (l.length - 1) ((0 : ℚ), (0 : ℚ)) = l.getLast hlne := by
          rw [List.getLast_eq_get l hlne, List.getD_eq_getElem?_getD,
            List.getElem?_eq_getElem (by omega : l.length - 1 < l.length)]
          rfl
        rw [this]
    have hboundAll : ∀ i ∈ List.range (b + 1), i * l.length / (b + 1) < l.length - 1 := by
      intro i hi
      have hiB : i < b + 1 := List.mem_range.mp hi
      rcases Nat.lt_or_ge i b with h | h
      · exact lt_trans (sel_idx_strictMono hB h hlen) hlastIdx
      · have : i = b := by omega
        subst this
        exact hlastIdx
    have hsel_take :
        List.Sublist ((List.range (b + 1)).map fun i => l.getD (i * l.length / (b + 1))
            ((0 : ℚ), (0 : ℚ)))
          (l.take (l.length - 1)) := by
      rw [hmapmap]
      apply getD_map_sublist_take
      · exact sel_pairwise l (b + 1) hB hlen
      · intro n hn
        rw [List.mem_map] at hn
        obtain ⟨i, hi, rfl⟩ := hn
        exact hboundAll i hi
      · omega
    have hdropLast : l.drop (l.length - 1) = [l.getLast hlne] := by
      have h1 : l.length - 1 < l.length := by
        have := List.length_pos.mpr hlne
        omega
      rw [List.drop_eq_get_cons h1]
      have h2 : l.drop (l.length - 1 + 1) = [] := by
        apply List.drop_eq_nil_of_le
        omega
      rw [h2, ← List.getLast_eq_get l hlne]
    have htail : List.Sublist l.getLast?.toList (l.drop (l.length - 1)) := by
      rw [List.getLast?_eq_getLast l hlne, hdropLast]
      simp [Option.toList]
    have hfinal := List.Sublist.append hsel_take htail
    rw [List.take_append_drop] at hfinal
    exact hfinal

/-! ## Claim C4 -/

/-- C4: for every input of length `len > B` (with a positive budget
`B`), downsampling selects exactly the samples at indices
`floor(i * len / B)` for `i = 0 .. B-1`, in order, appending the final
input sample exactly when the last selected pair differs from it; the
output length is `B` or `B + 1`, and the last output element always
equals the last input element. -/
theorem c4_downsample : ∀ (l : List Sample) (B : ℕ), 0 < B → B < l.length →
    downsample B l =
      (if ((List.range B).map fun i => l.getD (i * l.length / B) ((0 : ℚ), (0 : ℚ))).getLast?
          = l.getLast? then
        (List.range B).map fun i => l.getD (i * l.length / B) ((0 : ℚ), (0 : ℚ))
      else
        ((List.range B).map fun i => l.getD (i * l.length / B) ((0 : ℚ), (0 : ℚ)))
          ++ l.getLast?.toList)
    ∧ ((downsample B l).length = B ∨ (downsample B l).length = B + 1)
    ∧ (downsample B l).getLast? = l.getLast? :=
  fun l B hB hlen =>
    ⟨downsample_eq l B hB hlen, downsample_length l B hB hlen, downsample_getLast? l B hB hlen⟩

/-- Witness for C4 on a concrete 1000-sample input with budget 500. -/
theorem c4_downsample_witness :
    ((downsample 500 ((List.range 1000).map fun (i : ℕ) => ((i : ℚ), (0 : ℚ)))).length = 500
      ∨ (downsample 500 ((List.range 1000).map fun (i : ℕ) => ((i : ℚ), (0 : ℚ)))).length
          = 500 + 1)
    ∧ (downsample 500 ((List.range 1000).map fun (i : ℕ) => ((i : ℚ), (0 : ℚ)))).getLast?
        = ((List.range 1000).map fun (i : ℕ) => ((i : ℚ), (0 : ℚ))).getLast? := by
  have h := c4_downsample ((List.range 1000).map fun (i : ℕ) => ((i : ℚ), (0 : ℚ))) 500
    (by norm_num) (by simp)
  exact ⟨h.2.1, h.2.2⟩

/-! ## Claim C9 -/

theorem windowOrFallback_sublist (now : ℚ) (data : List Sample) (period : String) :
    List.Sublist (windowOrFallback now data period) data := by
  unfold windowOrFallback
  split
  · exact List.drop_sublist _ _
  · exact List.filter_sublist data

theorem processList_sublist (now : ℚ) (data : List Sample) (period : String) (B : ℕ)
    (hB : 0 < B) : List.Sublist (processList now data period B) data := by
  unfold processList
  split
  · rename_i h
    exact (downsample_sublist _ _ hB h).trans (windowOrFallback_sublist now data period)
  · exact windowOrFallback_sublist now data period

theorem process_data_fst (now : ℚ) (data : List Sample) (period : String) (B : ℕ)
    (hne : data ≠ []) :
    (process_data now data period B).1 = processList now data period B := by
  unfold process_data
  rw [if_neg (by simp [hne])]
  simp only []
  cases h : dataMinMax (processList now data period B) with
  | none => rfl
  | some p =>
    obtain ⟨dmin, dmax⟩ := p
    rfl

/-- C9: on every path of the Resampler the output sample list is an
ordered subsequence of the input (each output sample is one of the
input samples, in the input's relative order); and when the
window-filtered list is non-empty and within the point budget it is
returned unchanged. -/
theorem c9_subsequence : ∀ (now : ℚ) (data : List Sample) (period : String) (B : ℕ),
    0 < B → data ≠ [] →
    List.Sublist (process_data now data period B).1 data
    ∧ (windowFilter now (periodDuration period) data ≠ [] →
       (windowFilter now (periodDuration period) data).length ≤ B →
       (process_data now data period B).1 = windowFilter now (periodDuration period) data) := by
  intro now data period B hB hne
  rw [process_data_fst now data period B hne]
  constructor
  · exact processList_sublist now data period B hB
  · intro hw hlen
    have hwf : windowOrFallback now data period = windowFilter now (periodDuration period) data := by
      unfold windowOrFallback
      rw [if_neg]
      intro hcon
      exact hw (List.isEmpty_iff.mp hcon.1)
    unfold processList
    rw [hwf, if_neg (by omega)]

/-- Witness for C9 at a concrete three-sample input. -/
theorem c9_subsequence_witness :
    List.Sublist
      (process_data 100 [((50 : ℚ), (1 : ℚ)), ((60 : ℚ), (2 : ℚ)), ((70 : ℚ), (3 : ℚ))] "D" 500).1
      [((50 : ℚ), (1 : ℚ)), ((60 : ℚ), (2 : ℚ)), ((70 : ℚ), (3 : ℚ))] :=
  (c9_subsequence 100 [((50 : ℚ), (1 : ℚ)), ((60 : ℚ), (2 : ℚ)), ((70 : ℚ), (3 : ℚ))] "D" 500
    (by norm_num) (by simp)).1

/-! ## Claim C6 -/

theorem dataMinMax_aux (c : ℚ) : ∀ (t : List Sample), (∀ s ∈ t, s.2 = c) →
    t.foldl
      (fun acc s =>
        match acc with
        | none => some (s.2, s.2)
        | some (lo, hi) => some (if s.2 < lo then s.2 else lo, if hi < s.2 then s.2 else hi))
      (some (c, c)) = some (c, c) := by
  intro t
  induction t with
  | nil => intro _; rfl
  | cons y u ih =>
    intro h
    have hy : y.2 = c := h y (by simp)
    rw [List.foldl_cons]
    have hstep : (match some (c, c) with
        | none => some (y.2, y.2)
        | some (lo, hi) => some (if y.2 < lo then y.2 else lo, if hi < y.2 then y.2 else hi))
        = some (c, c) := by
      simp [hy]
    rw [hstep]
    exact ih fun s hs => h s (List.mem_cons_of_mem _ hs)

theorem dataMinMax_const (l : List Sample) (c : ℚ) (h : ∀ s ∈ l, s.2 = c) (hne : l ≠ []) :
    dataMinMax l = some (c, c) := by
  obtain ⟨x, t, rfl⟩ := List.exists_cons_of_ne_nil hne
  have hx : x.2 = c := h x (by simp)
  unfold dataMinMax
  rw [List.foldl_cons]
  have hfirst : (match (none : Option (ℚ × ℚ)) with
      | none => some (x.2, x.2)
      | some (lo, hi) => some (if x.2 < lo then x.2 else lo, if hi < x.2 then x.2 else hi))
      = some (c, c) := by
    simp [hx]
  rw [hfirst]
  exact dataMinMax_aux c t fun s hs => h s (List.mem_cons_of_mem _ hs)

/-- C6: for every non-empty input whose samples all carry the value
`5.0` and lie within the requested window, the Resampler's range is not
the degenerate pair `(5, 5)`: the span is treated as `0.5`
(`0.1 * |5|`), padded by 15% per side (giving `4.925 … 5.075`) and
snapped outward to the `0.01` step, and the output is exactly
`(4.92, 5.08)` with `yMin < 5 < yMax` strictly. -/
theorem c6_yrange : ∀ (now : ℚ) (period : String) (data : List Sample) (B : ℕ),
    0 < B → data ≠ [] → (∀ s ∈ data, s.2 = 5) →
    (∀ s ∈ data, now - (periodDuration period : ℚ) ≤ s.1) →
    (process_data now data period B).2.1 = 123 / 25
    ∧ (process_data now data period B).2.2 = 127 / 25
    ∧ (process_data now data period B).2.1 < 5
    ∧ (5 : ℚ) < (process_data now data period B).2.2 := by
  intro now period data B hB hne hval hwin
  have hwfilter : windowFilter now (periodDuration period) data = data := by
    unfold windowFilter
    apply List.filter_eq_self.mpr
    intro s hs
    exact decide_eq_true (hwin s hs)
  have hwfb : windowOrFallback now data period = data := by
    unfold windowOrFallback
    rw [hwfilter, if_neg fun hcon => hcon.2 hcon.1]
  have hplist : ∀ s ∈ processList now data period B, s.2 = 5 := fun s hs =>
    hval s ((processList_sublist now data period B hB).subset hs)
  have hpne : processList now data period B ≠ [] := by
    unfold processList
    rw [hwfb]
    split
    · rename_i h
      intro hc
      rcases downsample_length data B hB h with hl | hl <;> rw [hc] at hl <;> simp at hl <;> omega
    · exact hne
  have hmm : dataMinMax (processList now data period B) = some (5, 5) :=
    dataMinMax_const _ 5 hplist hpne
  have hsnd : (process_data now data period B).2 = computeRange 5 5 := by
    unfold process_data
    rw [if_neg (by simp [hne])]
    simp only [hmm]
  have hcr : computeRange 5 5 = (123 / 25, 127 / 25) := by with_unfolding_all decide
  rw [hsnd, hcr]
  refine ⟨rfl, rfl, by norm_num, by norm_num⟩

/-- Witness for C6 at a concrete all-5.0 three-sample input. -/
theorem c6_yrange_witness :
    (process_data 100 [((50 : ℚ), (5 : ℚ)), ((60 : ℚ), (5 : ℚ)), ((70 : ℚ), (5 : ℚ))] "D" 500).2.1
        = 123 / 25
    ∧ (process_data 100 [((50 : ℚ), (5 : ℚ)), ((60 : ℚ), (5 : ℚ)), ((70 : ℚ), (5 : ℚ))]
        "D" 500).2.2 = 127 / 25
    ∧ (process_data 100 [((50 : ℚ), (5 : ℚ)), ((60 : ℚ), (5 : ℚ)), ((70 : ℚ), (5 : ℚ))]
        "D" 500).2.1 < 5
    ∧ (5 : ℚ) < (process_data 100 [((50 : ℚ), (5 : ℚ)), ((60 : ℚ), (5 : ℚ)),
        ((70 : ℚ), (5 : ℚ))] "D" 500).2.2 :=
  c6_yrange 100 "D" [((50 : ℚ), (5 : ℚ)), ((60 : ℚ), (5 : ℚ)), ((70 : ℚ), (5 : ℚ))] 500
    (by norm_num) (by simp) (by intro s hs; fin_cases hs <;> rfl)
    (by intro s hs; fin_cases hs <;> norm_num [show periodDuration "D" = 86400 from rfl])

/-! ## Claim C7 -/

theorem runsCont_nil_left (l : List DVal) : runsCont [] l = maximalPlausibleRuns l := by
  unfold runsCont
  rfl

theorem scanLoop_runsCont : ∀ (l : List DVal) (blocks : List (List DVal)) (cur : List DVal),
    scanLoop l blocks cur = blocks ++ (runsCont cur l).filter fun b => 30 ≤ b.length := by
  intro l
  induction l with
  | nil =>
    intro blocks cur
    cases cur with
    | nil => simp [scanLoop, runsCont, maximalPlausibleRuns]
    | cons c cs =>
      by_cases h : 29 ≤ cs.length <;>
        simp [scanLoop, runsCont, maximalPlausibleRuns, h, List.filter_cons]
  | cons v rest ih =>
    intro blocks cur
    unfold scanLoop
    by_cases hv : is_valid_sensor_value v = true
    · rw [if_pos hv, ih]
      have hsame : runsCont cur (v :: rest) = runsCont (cur ++ [v]) rest := by
        unfold runsCont
        cases cur with
        | nil =>
          simp only [List.isEmpty_nil, if_true, List.nil_append, List.isEmpty_cons, if_false]
          rw [maximalPlausibleRuns, if_pos hv]
          rfl
        | cons c cs =>
          simp only [List.isEmpty_cons, if_false, List.takeWhile_cons_of_pos hv,
            List.dropWhile_cons_of_pos hv]
          rw [List.append_assoc]
          rfl
      rw [hsame]
    · rw [if_neg hv, ih]
      cases cur with
      | nil =>
        have hruns : runsCont ([] : List DVal) (v :: rest) = runsCont [] rest := by
          rw [runsCont_nil_left, runsCont_nil_left, maximalPlausibleRuns, if_neg hv]
        rw [hruns]
        rfl
      | cons c cs =>
        have hruns : runsCont (c :: cs) (v :: rest) = (c :: cs) :: runsCont [] rest := by
          simp [runsCont, List.takeWhile_cons_of_neg hv, List.dropWhile_cons_of_neg hv,
            maximalPlausibleRuns, hv]
        rw [hruns]
        by_cases h : 29 ≤ cs.length <;> simp [h, List.filter_cons]

/-- C7: the Heuristic Scanner reads consecutive 8-byte big-endian
doubles from offset 200; the accumulation loop produces exactly the
maximal consecutive plausible runs of at least 30 values (first
conjunct); its result is the longest kept block's values with synthetic
timestamps (second conjunct); Python's `max(..., key=len)` picks the
longest block with ties broken by first occurrence (third conjunct); on
a concrete buffer with a 40-value plausible run (values alternating
`1.0, 2.0`), a shorter 35-value run and non-finite/out-of-range
neighbours, exactly the 40 values are returned (fourth conjunct); and a
buffer with no qualifying block yields no usable data (fifth
conjunct). -/
theorem c7_scanner :
    (∀ data : List ℕ, scanLoop (scanVals data) [] [] =
        (maximalPlausibleRuns (scanVals data)).filter fun b => 30 ≤ b.length)
    ∧ (∀ (now : ℚ) (data : List ℕ), parse_rrd4j_values_only now data =
        (pythonMaxBy List.length
            ((maximalPlausibleRuns (scanVals data)).filter fun b => 30 ≤ b.length)).map
          fun values => values.enum.map fun p =>
            (now - ((values.length - p.1 - 1 : ℕ) : ℚ) * 60, p.2.toRat))
    ∧ (∀ bs : List (List DVal), bs ≠ [] →
        ∃ b pre post, pythonMaxBy List.length bs = some b ∧ bs = pre ++ b :: post ∧
          (∀ c ∈ bs, c.length ≤ b.length) ∧ ∀ c ∈ pre, c.length < b.length)
    ∧ (parse_rrd4j_values_only 0 bufC7).map (List.map Prod.snd)
        = some (List.replicate 20 [(1 : ℚ), 2]).flatten
    ∧ parse_rrd4j_values_only 0 bufC7none = none := by
  have h1 : ∀ data : List ℕ, scanLoop (scanVals data) [] [] =
      (maximalPlausibleRuns (scanVals data)).filter fun b => 30 ≤ b.length := by
    intro data
    rw [scanLoop_runsCont, runsCont_nil_left]
    rfl
  refine ⟨h1, ?_, ?_, by with_unfolding_all decide, by with_unfolding_all decide⟩
  · intro now data
    unfold parse_rrd4j_values_only
    rw [h1 data]
    cases h : pythonMaxBy List.length
        ((maximalPlausibleRuns (scanVals data)).filter fun b => 30 ≤ b.length) <;> simp [h]
  · intro bs hne
    obtain ⟨a, pre, post, hmax, hdec, hpre, hall⟩ := pythonMaxBy_decomp List.length bs hne
    exact ⟨a, pre, post, hmax, hdec, hall, hpre⟩

/-- Witness for C7's longest-block characterization at a concrete
block list. -/
theorem c7_scanner_witness :
    ∃ b pre post,
      pythonMaxBy List.length [[DVal.nan], [DVal.inf, DVal.nan]] = some b ∧
      [[DVal.nan], [DVal.inf, DVal.nan]] = pre ++ b :: post ∧
      (∀ c ∈ [[DVal.nan], [DVal.inf, DVal.nan]], c.length ≤ b.length) ∧
      ∀ c ∈ pre, c.length < b.length :=
  c7_scanner.2.2.1 [[DVal.nan], [DVal.inf, DVal.nan]] (by simp)

end Genchart
